import Mathlib

/-!
Verification of the Newton's-method square-root solver from the
`math.isclose()` example notebook.

The Python source is:

    def newton_sqrt(n, verbose=False):
        guess = n / 2
        while True:
            if verbose: print('guess ->', guess)
            better_guess = (guess + n/guess) / 2
            if math.isclose(guess, better_guess):
                return better_guess
            guess = better_guess

We embed this program twice.

* The exact model (`newton_sqrt`, `newtonLoop`, `guessSeq`, over `ℚ`):
  every arithmetic operation of the source is exact arithmetic.  This
  matches the data model of the design document, which describes the
  input and the state as real numbers, and it is the model in which the
  universally quantified contract properties are settled.

* The IEEE-754 binary64 model (`newton_sqrtF`, `newtonLoopF`): every
  arithmetic operation of the source is followed by correct rounding to
  the nearest binary64 value (round-half-to-even), which is the
  semantics of Python float arithmetic on normal-range values.  This is
  the model in which bit-exact claims about concrete runs are settled.

The unbounded `while True` loop is embedded with an explicit fuel
parameter; `diverge` marks fuel exhaustion, and `zeroDivisionError`
marks the uncaught `ZeroDivisionError` that Python raises when
`n/guess` divides by zero.

Because rational arithmetic on `ℚ` is not evaluable by kernel
reduction, concrete runs are computed on `Frac`, unnormalised fractions
of machine-level integers, with `Frac.val : Frac → ℚ` the denotation
and a proved step-by-step simulation (`newton_sqrtX_sim`) connecting
the `Frac` loop to the `ℚ` loop.  The binary64 model is built directly
on `Frac` so that its runs are evaluable by `decide`.
-/

/-! ### The exact model, over `ℚ` -/

/-- Default relative tolerance of `math.isclose` (`rel_tol=1e-9`). -/
def relTol : ℚ := 1 / 1000000000

/-- Default absolute tolerance of `math.isclose` (`abs_tol=0.0`). -/
def absTol : ℚ := 0

/-- The `math.isclose` predicate with default tolerances, on exact
rationals: `abs(a-b) <= max(rel_tol * max(abs(a), abs(b)), abs_tol)`. -/
def isclose (a b : ℚ) : Prop :=
  |a - b| ≤ max (relTol * max |a| |b|) absTol

instance isclose.instDecidable (a b : ℚ) : Decidable (isclose a b) :=
  inferInstanceAs (Decidable (|a - b| ≤ max (relTol * max |a| |b|) absTol))

/-- Result of running the embedded solver with a given amount of fuel:
either the loop returned a value, or it raised `ZeroDivisionError`, or
the fuel ran out before the loop returned. -/
inductive Outcome where
  | diverge : Outcome
  | zeroDivisionError : Outcome
  | ok (r : ℚ) : Outcome
  deriving DecidableEq, Repr

/-- One refinement step of the loop body:
`better_guess = (guess + n/guess) / 2`, in exact arithmetic. -/
def better (n g : ℚ) : ℚ := (g + n / g) / 2

/-- The `while True` loop of `newton_sqrt`, in exact arithmetic, with
explicit fuel.  When the current guess is `0`, the source's `n/guess`
raises `ZeroDivisionError`. -/
def newtonLoop (n : ℚ) : ℕ → ℚ → Outcome
  | 0, _ => .diverge
  | fuel + 1, g =>
    if g = 0 then .zeroDivisionError
    else
      let b := better n g
      if isclose g b then .ok b else newtonLoop n fuel b

/-- `newton_sqrt` in exact arithmetic: start from `guess = n / 2` and
run the loop. -/
def newton_sqrt (n : ℚ) (fuel : ℕ) : Outcome := newtonLoop n fuel (n / 2)

/-- The sequence of guesses produced by the loop (ignoring the exit
test): `guessSeq n 0 = n / 2`, and each later guess is the better guess
computed from its predecessor. -/
def guessSeq (n : ℚ) : ℕ → ℚ
  | 0 => n / 2
  | k + 1 => better n (guessSeq n k)

/-- The value returned by a terminating run, `0` otherwise. -/
def okValue : Outcome → ℚ
  | .ok r => r
  | _ => 0

/-- The exact-arithmetic solver's result on input `n` (fuel 30 is ample
for the inputs considered in the notebook). -/
def sqrtApprox (n : ℚ) : ℚ := okValue (newton_sqrt n 30)

/-- The `math.isclose` formula with default tolerances as a predicate
on real numbers, used to compare a computed result with the true
(generally irrational) square root. -/
def isCloseR (a b : ℝ) : Prop :=
  |a - b| ≤ max ((relTol : ℝ) * max |a| |b|) ((absTol : ℝ))

/-! ### Executable fractions

`Frac` is an unnormalised fraction `num / den` of integers.  All
constructions below keep `0 < den`.  Unlike `ℚ`, every operation on
`Frac` is evaluable by kernel reduction, so concrete runs of the loops
can be settled by `decide`. -/

/-- An unnormalised fraction of integers, denoting `num / den : ℚ`. -/
structure Frac where
  num : ℤ
  den : ℤ
  deriving DecidableEq, Repr

/-- Denotation of a fraction as a rational number. -/
def Frac.val (x : Frac) : ℚ := (x.num : ℚ) / (x.den : ℚ)

/-- Fraction addition. -/
def Frac.add (a b : Frac) : Frac := ⟨a.num * b.den + b.num * a.den, a.den * b.den⟩

/-- Fraction subtraction. -/
def Frac.sub (a b : Frac) : Frac := ⟨a.num * b.den - b.num * a.den, a.den * b.den⟩

/-- Fraction multiplication. -/
def Frac.mul (a b : Frac) : Frac := ⟨a.num * b.num, a.den * b.den⟩

/-- Fraction reciprocal; the sign is kept in the numerator so that the
denominator stays positive. -/
def Frac.inv (a : Frac) : Frac := if a.num < 0 then ⟨-a.den, -a.num⟩ else ⟨a.den, a.num⟩

/-- Fraction division. -/
def Frac.div (a b : Frac) : Frac := a.mul b.inv

/-- Fraction negation. -/
def Frac.neg (a : Frac) : Frac := ⟨-a.num, a.den⟩

/-- Fraction absolute value (positive denominator assumed). -/
def Frac.fabs (a : Frac) : Frac := ⟨|a.num|, a.den⟩

/-- Fraction comparison (positive denominators assumed). -/
def Frac.ble (a b : Frac) : Bool := decide (a.num * b.den ≤ b.num * a.den)

/-- Strict fraction comparison (positive denominators assumed). -/
def Frac.blt (a b : Frac) : Bool := decide (a.num * b.den < b.num * a.den)

/-- Fraction maximum (positive denominators assumed). -/
def Frac.fmax (a b : Frac) : Frac := if a.ble b then b else a

/-- Test for the value zero (nonzero denominator assumed). -/
def Frac.isZero (a : Frac) : Bool := decide (a.num = 0)

/-- Outcome of a loop run carrying a fraction. -/
inductive OutcomeX where
  | diverge : OutcomeX
  | zeroDivisionError : OutcomeX
  | ok (r : Frac) : OutcomeX
  deriving DecidableEq, Repr

/-- Denotation of a fraction outcome as a rational outcome. -/
def OutcomeX.val : OutcomeX → Outcome
  | .diverge => .diverge
  | .zeroDivisionError => .zeroDivisionError
  | .ok r => .ok r.val

/-- The fraction returned by a terminating run, `0` otherwise. -/
def okX : OutcomeX → Frac
  | .ok r => r
  | _ => ⟨0, 1⟩

/-! ### The exact model, on executable fractions -/

/-- `rel_tol = 1e-9` as a fraction. -/
def relTolX : Frac := ⟨1, 1000000000⟩

/-- `abs_tol = 0.0` as a fraction. -/
def absTolX : Frac := ⟨0, 1⟩

/-- The `math.isclose` test on fractions, mirroring `isclose`. -/
def iscloseX (a b : Frac) : Bool :=
  (a.sub b).fabs.ble ((relTolX.mul (a.fabs.fmax b.fabs)).fmax absTolX)

/-- `better_guess = (guess + n/guess) / 2` on fractions. -/
def betterX (n g : Frac) : Frac := (g.add (n.div g)).div ⟨2, 1⟩

/-- The loop of `newton_sqrt` on fractions, exact arithmetic. -/
def newtonLoopX (n : Frac) : ℕ → Frac → OutcomeX
  | 0, _ => .diverge
  | fuel + 1, g =>
    if g.isZero then .zeroDivisionError
    else
      let b := betterX n g
      if iscloseX g b then .ok b else newtonLoopX n fuel b

/-- `newton_sqrt` on fractions, exact arithmetic. -/
def newton_sqrtX (n : Frac) (fuel : ℕ) : OutcomeX := newtonLoopX n fuel (n.div ⟨2, 1⟩)

/-! ### The IEEE-754 binary64 model, on executable fractions

A finite binary64 value in the normal range is a rational `m * 2^t`
with `2^52 ≤ |m| < 2^53`.  Python float arithmetic computes the exact
rational result of each operation and rounds it to the nearest such
value, ties to the even significand.  `roundFX` implements that
rounding, including gradual underflow: in the subnormal range the
rounding quantum is fixed at `2^(-1074)`, so for example half of the
smallest positive value `2^(-1074)` rounds to zero.  Overflow to
infinity is not modelled (it occurs in none of the runs analysed
here). -/

/-- Fuel-driven base-2 logarithm (the fuel only bounds recursion depth;
`natLog2` supplies enough of it).  Sixty-four bits are peeled at a time
when possible, so that the recursion stays shallow even for the huge
denominators that arise from subnormal values. -/
def log2Fuel : ℕ → ℕ → ℕ
  | 0, _ => 0
  | fuel + 1, n =>
    if n ≤ 1 then 0
    else if 2 ^ 64 ≤ n then log2Fuel fuel (n / 2 ^ 64) + 64
    else log2Fuel fuel (n / 2) + 1

/-- Base-2 logarithm of a natural number, `⌊log2 n⌋` for `n ≥ 1`. -/
def natLog2 (n : ℕ) : ℕ := log2Fuel n n

/-- The fraction `2^d` for an integer exponent `d` (the power is
computed on `ℕ`, whose exponentiation is evaluable without deep
recursion). -/
def pow2 (d : ℤ) : Frac :=
  if 0 ≤ d then ⟨((2 ^ d.toNat : ℕ) : ℤ), 1⟩ else ⟨1, ((2 ^ (-d).toNat : ℕ) : ℤ)⟩

/-- Binary exponent of a positive fraction: the unique `e` with
`2^e ≤ x < 2^(e+1)`. -/
def flog2X (x : Frac) : ℤ :=
  let d : ℤ := (natLog2 x.num.toNat : ℤ) - (natLog2 x.den.toNat : ℤ)
  if x.blt (pow2 d) then d - 1 else d

/-- Round a positive fraction to an integer multiple of `2^t`, nearest,
ties to the even multiple. -/
def roundAtX (x : Frac) (t : ℤ) : Frac :=
  let r := x.mul (pow2 (-t))
  let m : ℤ := r.num / r.den
  let fr := r.sub ⟨m, 1⟩
  let m2 : ℤ :=
    if fr.blt ⟨1, 2⟩ then m
    else if (⟨1, 2⟩ : Frac).blt fr then m + 1
    else if m % 2 = 0 then m else m + 1
  (⟨m2, 1⟩ : Frac).mul (pow2 t)

/-- Round a positive fraction to the nearest binary64 value: 53
significant bits, i.e. a multiple of `2^(flog2X x - 52)`, except that
in the subnormal range the quantum never drops below `2^(-1074)`
(gradual underflow, so values below `2^(-1075)` round to zero and
`2^(-1075)` itself rounds to zero by the tie-to-even rule). -/
def roundPosX (x : Frac) : Frac := roundAtX x (max (flog2X x - 52) (-1074))

/-- Round any fraction to the nearest binary64 value (normal range). -/
def roundFX (x : Frac) : Frac :=
  if x.isZero then ⟨0, 1⟩
  else if x.blt ⟨0, 1⟩ then (roundPosX x.neg).neg
  else roundPosX x

/-- Binary64 addition: exact sum, then rounding. -/
def fadd (a b : Frac) : Frac := roundFX (a.add b)

/-- Binary64 subtraction: exact difference, then rounding. -/
def fsub (a b : Frac) : Frac := roundFX (a.sub b)

/-- Binary64 multiplication: exact product, then rounding. -/
def fmul (a b : Frac) : Frac := roundFX (a.mul b)

/-- Binary64 division: exact quotient, then rounding. -/
def fdiv (a b : Frac) : Frac := roundFX (a.div b)

/-- The binary64 value of the Python literal `1e-9`, the default
`rel_tol` of `math.isclose`. -/
def relTolF : Frac := roundFX ⟨1, 1000000000⟩

/-- `math.isclose` with default tolerances as computed by the C
implementation on binary64 values:
`fabs(a-b) <= max(rel_tol * max(fabs(a), fabs(b)), abs_tol)`,
where the subtraction and the multiplication round. -/
def iscloseF (a b : Frac) : Bool :=
  (fsub a b).fabs.ble ((fmul relTolF (a.fabs.fmax b.fabs)).fmax absTolX)

/-- `better_guess = (guess + n/guess) / 2` in binary64 arithmetic. -/
def betterF (n g : Frac) : Frac := fdiv (fadd g (fdiv n g)) ⟨2, 1⟩

/-- The loop of `newton_sqrt` in binary64 arithmetic, with explicit
fuel. -/
def newtonLoopF (n : Frac) : ℕ → Frac → OutcomeX
  | 0, _ => .diverge
  | fuel + 1, g =>
    if g.isZero then .zeroDivisionError
    else
      let b := betterF n g
      if iscloseF g b then .ok b else newtonLoopF n fuel b

/-- `newton_sqrt` in binary64 arithmetic. -/
def newton_sqrtF (n : Frac) (fuel : ℕ) : OutcomeX := newtonLoopF n fuel (fdiv n ⟨2, 1⟩)

/-- The binary64 solver's result on the integer input `n` (fuel 30 is
ample for the inputs considered in the notebook). -/
def fsqrtApprox (n : ℕ) : Frac := okX (newton_sqrtF ⟨(n : ℤ), 1⟩ 30)

/-- Modelled from the spec: the notebook's `math.sqrt(n)` (library
code, not part of this repository's source) returns the binary64 value
nearest to the exact square root.  For `9 ≤ n ≤ 16` the root lies in
`[3, 4]`, so that value is `m * 2^(-51)` with `2^52 ≤ m ≤ 2^53`, and
being nearest means the exact root is within half an ulp of it:
`(2m-1)^2 ≤ 2^104 * n ≤ (2m+1)^2` (ties cannot occur, as `2^104 * n`
is even while `(2m ± 1)^2` is odd).  `sqrtRounded n m` states that
characterisation of the significand `m`. -/
def sqrtRounded (n : ℕ) (m : ℤ) : Prop :=
  2 ^ 52 ≤ m ∧ m ≤ 2 ^ 53 ∧
    (2 * m - 1) ^ 2 ≤ 2 ^ 104 * (n : ℤ) ∧ 2 ^ 104 * (n : ℤ) ≤ (2 * m + 1) ^ 2

instance sqrtRounded.instDecidable (n : ℕ) (m : ℤ) : Decidable (sqrtRounded n m) :=
  inferInstanceAs (Decidable (2 ^ 52 ≤ m ∧ m ≤ 2 ^ 53 ∧
    (2 * m - 1) ^ 2 ≤ 2 ^ 104 * (n : ℤ) ∧ 2 ^ 104 * (n : ℤ) ≤ (2 * m + 1) ^ 2))

/-- Significands of the binary64 values of `math.sqrt(n)` for
`n = 9, ..., 16`; each is certified against `sqrtRounded` in the C5
theorem below. -/
def msqrtNum : ℕ → ℤ
  | 9 => 6755399441055744
  | 10 => 7120816245988179
  | 11 => 7468375084986164
  | 12 => 7800463371553962
  | 13 => 8118979690322419
  | 14 => 8425463406411593
  | 15 => 8721183177395930
  | 16 => 9007199254740992
  | _ => 0

/-- The binary64 value of `math.sqrt(n)` for `n = 9, ..., 16`. -/
def msqrtF (n : ℕ) : Frac := ⟨msqrtNum n, 2 ^ 51⟩

/-- The smallest positive binary64 value, `2^(-1074)` (the Python float
`5e-324`), as a fraction. -/
def minSubnormal : Frac := ⟨1, ((2 ^ 1074 : ℕ) : ℤ)⟩

/-! ### Denotation lemmas for executable fractions -/

lemma Frac.val_add (a b : Frac) (ha : a.den ≠ 0) (hb : b.den ≠ 0) :
    (a.add b).val = a.val + b.val := by
  have ha' : (a.den : ℚ) ≠ 0 := Int.cast_ne_zero.mpr ha
  have hb' : (b.den : ℚ) ≠ 0 := Int.cast_ne_zero.mpr hb
  unfold Frac.val Frac.add
  push_cast
  field_simp

lemma Frac.val_sub (a b : Frac) (ha : a.den ≠ 0) (hb : b.den ≠ 0) :
    (a.sub b).val = a.val - b.val := by
  have ha' : (a.den : ℚ) ≠ 0 := Int.cast_ne_zero.mpr ha
  have hb' : (b.den : ℚ) ≠ 0 := Int.cast_ne_zero.mpr hb
  unfold Frac.val Frac.sub
  push_cast
  field_simp
  ring

lemma Frac.val_mul (a b : Frac) : (a.mul b).val = a.val * b.val := by
  unfold Frac.val Frac.mul
  push_cast
  rw [div_mul_div_comm]

lemma Frac.val_inv (a : Frac) : a.inv.val = a.val⁻¹ := by
  unfold Frac.val Frac.inv
  rcases lt_or_le a.num 0 with h | h
  · rw [if_pos h]
    push_cast
    rw [neg_div_neg_eq, inv_div]
  · rw [if_neg (not_lt.mpr h)]
    rw [inv_div]

lemma Frac.val_div (a b : Frac) : (a.div b).val = a.val / b.val := by
  rw [Frac.div, Frac.val_mul, Frac.val_inv, div_eq_mul_inv]

lemma Frac.val_fabs (a : Frac) (ha : 0 < a.den) : a.fabs.val = |a.val| := by
  have ha' : (0 : ℚ) < (a.den : ℚ) := by exact_mod_cast ha
  show ((|a.num| : ℤ) : ℚ) / ((a.den : ℤ) : ℚ) = |a.val|
  rw [Frac.val, abs_div, abs_of_pos ha']
  push_cast
  rfl

lemma Frac.ble_iff (a b : Frac) (ha : 0 < a.den) (hb : 0 < b.den) :
    a.ble b = true ↔ a.val ≤ b.val := by
  have ha' : (0 : ℚ) < (a.den : ℚ) := by exact_mod_cast ha
  have hb' : (0 : ℚ) < (b.den : ℚ) := by exact_mod_cast hb
  rw [Frac.ble, decide_eq_true_eq, Frac.val, Frac.val, div_le_div_iff ha' hb']
  constructor
  · intro h; exact_mod_cast h
  · intro h; exact_mod_cast h

lemma Frac.val_fmax (a b : Frac) (ha : 0 < a.den) (hb : 0 < b.den) :
    (a.fmax b).val = max a.val b.val := by
  unfold Frac.fmax
  by_cases h : a.ble b = true
  · rw [if_pos h, max_eq_right ((Frac.ble_iff a b ha hb).mp h)]
  · have hlt : b.val ≤ a.val := by
      have := (Frac.ble_iff a b ha hb).not.mp h
      exact le_of_lt (not_le.mp this)
    rw [if_neg h, max_eq_left hlt]

lemma Frac.isZero_iff (a : Frac) (ha : a.den ≠ 0) : a.isZero = true ↔ a.val = 0 := by
  rw [Frac.isZero, decide_eq_true_eq, Frac.val, div_eq_zero_iff]
  constructor
  · intro h; left; exact_mod_cast h
  · intro h
    rcases h with h | h
    · exact_mod_cast h
    · exact absurd (by exact_mod_cast h) ha

lemma Frac.inv_den_pos (a : Frac) (h : a.num ≠ 0) : 0 < a.inv.den := by
  unfold Frac.inv
  rcases lt_or_le a.num 0 with hlt | hle
  · rw [if_pos hlt]
    simpa using hlt
  · rw [if_neg (not_lt.mpr hle)]
    exact lt_of_le_of_ne hle (Ne.symm h)

lemma Frac.sub_den_pos (a b : Frac) (ha : 0 < a.den) (hb : 0 < b.den) :
    0 < (a.sub b).den := mul_pos ha hb

lemma Frac.mul_den_pos (a b : Frac) (ha : 0 < a.den) (hb : 0 < b.den) :
    0 < (a.mul b).den := mul_pos ha hb

lemma Frac.fabs_den_pos (a : Frac) (ha : 0 < a.den) : 0 < a.fabs.den := ha

lemma Frac.fmax_den_pos (a b : Frac) (ha : 0 < a.den) (hb : 0 < b.den) :
    0 < (a.fmax b).den := by
  unfold Frac.fmax
  by_cases h : a.ble b = true
  · rw [if_pos h]; exact hb
  · rw [if_neg h]; exact ha

lemma iscloseX_iff (a b : Frac) (ha : 0 < a.den) (hb : 0 < b.den) :
    iscloseX a b = true ↔ isclose a.val b.val := by
  have hXden : 0 < (a.sub b).fabs.den := Frac.fabs_den_pos _ (Frac.sub_den_pos a b ha hb)
  have hMden : 0 < (a.fabs.fmax b.fabs).den :=
    Frac.fmax_den_pos _ _ (Frac.fabs_den_pos a ha) (Frac.fabs_den_pos b hb)
  have hRden : 0 < (relTolX.mul (a.fabs.fmax b.fabs)).den :=
    Frac.mul_den_pos _ _ (by norm_num [relTolX]) hMden
  have hYden : 0 < ((relTolX.mul (a.fabs.fmax b.fabs)).fmax absTolX).den :=
    Frac.fmax_den_pos _ _ hRden (by norm_num [absTolX])
  have h1 : (a.sub b).fabs.val = |a.val - b.val| := by
    rw [Frac.val_fabs _ (Frac.sub_den_pos a b ha hb), Frac.val_sub a b ha.ne' hb.ne']
  have h2 : ((relTolX.mul (a.fabs.fmax b.fabs)).fmax absTolX).val
      = max (relTol * max |a.val| |b.val|) absTol := by
    rw [Frac.val_fmax _ _ hRden (by norm_num [absTolX]), Frac.val_mul,
      Frac.val_fmax _ _ (Frac.fabs_den_pos a ha) (Frac.fabs_den_pos b hb),
      Frac.val_fabs a ha, Frac.val_fabs b hb]
    norm_num [relTolX, absTolX, relTol, absTol, Frac.val]
  rw [iscloseX, Frac.ble_iff _ _ hXden hYden, h1, h2, isclose]

lemma betterX_den_pos (n g : Frac) (hn : 0 < n.den) (hg : 0 < g.den) (hgn : g.num ≠ 0) :
    0 < (betterX n g).den := by
  have h2 : (0 : ℤ) < (Frac.inv ⟨2, 1⟩).den := Frac.inv_den_pos ⟨2, 1⟩ (by norm_num)
  have hdiv : (0 : ℤ) < (n.div g).den := mul_pos hn (Frac.inv_den_pos g hgn)
  have hadd : (0 : ℤ) < (g.add (n.div g)).den := mul_pos hg hdiv
  show (0 : ℤ) < (g.add (n.div g)).den * (Frac.inv ⟨2, 1⟩).den
  exact mul_pos hadd h2

lemma betterX_val (n g : Frac) (hn : 0 < n.den) (hg : 0 < g.den) (hgn : g.num ≠ 0) :
    (betterX n g).val = better n.val g.val := by
  have hdg : (n.div g).den ≠ 0 := (mul_pos hn (Frac.inv_den_pos g hgn)).ne'
  rw [betterX, Frac.val_div, Frac.val_add g (n.div g) hg.ne' hdg, Frac.val_div, better]
  norm_num [Frac.val]

lemma newtonLoopX_sim (n : Frac) (hn : 0 < n.den) :
    ∀ (fuel : ℕ) (g : Frac), 0 < g.den →
      (newtonLoopX n fuel g).val = newtonLoop n.val fuel g.val := by
  intro fuel
  induction fuel with
  | zero => intro g _; rfl
  | succ f ih =>
    intro g hg
    by_cases hz : g.isZero = true
    · have hval : g.val = 0 := (Frac.isZero_iff g hg.ne').mp hz
      simp [newtonLoopX, newtonLoop, hz, hval, OutcomeX.val]
    · have hgn : g.num ≠ 0 := by
        intro h
        exact hz (by rw [Frac.isZero, decide_eq_true_eq]; exact h)
      have hval : ¬(g.val = 0) := fun h => hz ((Frac.isZero_iff g hg.ne').mpr h)
      have hbval : (betterX n g).val = better n.val g.val := betterX_val n g hn hg hgn
      have hbden : 0 < (betterX n g).den := betterX_den_pos n g hn hg hgn
      by_cases hc : iscloseX g (betterX n g) = true
      · have hcq : isclose g.val (better n.val g.val) := by
          rw [← hbval]
          exact (iscloseX_iff g (betterX n g) hg hbden).mp hc
        simp [newtonLoopX, newtonLoop, hz, hval, hc, hcq, OutcomeX.val, hbval]
      · have hcq : ¬ isclose g.val (better n.val g.val) := by
          rw [← hbval]
          exact fun h => hc ((iscloseX_iff g (betterX n g) hg hbden).mpr h)
        simp only [newtonLoopX, newtonLoop, hz, hval, hc, hcq, if_neg, if_false,
          Bool.false_eq_true, ite_false]
        rw [← hbval]
        exact ih (betterX n g) hbden

lemma newton_sqrtX_sim (n : Frac) (hn : 0 < n.den) (fuel : ℕ) :
    (newton_sqrtX n fuel).val = newton_sqrt n.val fuel := by
  have hden : 0 < (n.div ⟨2, 1⟩).den := mul_pos hn (Frac.inv_den_pos ⟨2, 1⟩ (by norm_num))
  have hval : (n.div ⟨2, 1⟩).val = n.val / 2 := by
    rw [Frac.val_div]
    norm_num [Frac.val]
  rw [newton_sqrtX, newton_sqrt, newtonLoopX_sim n hn fuel _ hden, hval]

/-! ### Basic facts about the exact-arithmetic loop -/

lemma better_pos (n g : ℚ) (hn : 0 < n) (hg : 0 < g) : 0 < better n g := by
  unfold better
  positivity

lemma better_sub_sq (n g : ℚ) (hg : g ≠ 0) :
    (better n g) ^ 2 - n = (g - better n g) ^ 2 := by
  unfold better
  field_simp
  ring

lemma better_sq_ge (n g : ℚ) (hg : g ≠ 0) : n ≤ (better n g) ^ 2 := by
  have h := better_sub_sq n g hg
  nlinarith [sq_nonneg (g - better n g)]

lemma better_le_self (n g : ℚ) (hg : 0 < g) (hsq : n ≤ g ^ 2) : better n g ≤ g := by
  have hdiv : n / g ≤ g := (div_le_iff hg).mpr (by nlinarith)
  unfold better
  linarith

lemma isclose_iff_of_pos (a b : ℚ) (ha : 0 < a) (hb : 0 < b) :
    isclose a b ↔ |a - b| ≤ relTol * max a b := by
  unfold isclose absTol
  rw [abs_of_pos ha, abs_of_pos hb, max_eq_left]
  have h0 : (0 : ℚ) < max a b := lt_max_of_lt_left ha
  have h1 : (0 : ℚ) ≤ relTol := by norm_num [relTol]
  exact mul_nonneg h1 h0.le

lemma isclose_step_bound (n g : ℚ) (hn : 0 < n) (hg : 0 < g)
    (hc : isclose g (better n g)) :
    (better n g) ^ 2 - n ≤ relTol * (better n g) ^ 2 := by
  set b := better n g with hbdef
  have hb : 0 < b := better_pos n g hn hg
  have habs : |g - b| ≤ relTol * max g b := (isclose_iff_of_pos g b hg hb).mp hc
  have hsq : b ^ 2 - n = (g - b) ^ 2 := better_sub_sq n g hg.ne'
  have e4 : relTol ≤ (1 - relTol) ^ 2 := by norm_num [relTol]
  rcases le_total g b with h1 | h1
  · have hmax : max g b = b := max_eq_right h1
    rw [hmax] at habs
    have e1 : (g - b) ^ 2 ≤ (relTol * b) ^ 2 := by
      rw [← sq_abs]
      exact pow_le_pow_left (abs_nonneg _) habs 2
    have hrel1 : relTol ^ 2 ≤ relTol := by norm_num [relTol]
    calc b ^ 2 - n = (g - b) ^ 2 := hsq
      _ ≤ (relTol * b) ^ 2 := e1
      _ = relTol ^ 2 * b ^ 2 := by ring
      _ ≤ relTol * b ^ 2 := mul_le_mul_of_nonneg_right hrel1 (sq_nonneg b)
  · have hmax : max g b = g := max_eq_left h1
    rw [hmax] at habs
    have hgb : 0 ≤ g - b := by linarith
    have h3 : g - b ≤ relTol * g := by
      rw [abs_of_nonneg hgb] at habs
      exact habs
    have e1 : (g - b) ^ 2 ≤ (relTol * g) ^ 2 := pow_le_pow_left hgb h3 2
    have e2 : (1 - relTol) * g ≤ b := by linarith
    have e3 : ((1 - relTol) * g) ^ 2 ≤ b ^ 2 := by
      apply pow_le_pow_left _ e2 2
      have : (0 : ℚ) < 1 - relTol := by norm_num [relTol]
      positivity
    calc b ^ 2 - n = (g - b) ^ 2 := hsq
      _ ≤ (relTol * g) ^ 2 := e1
      _ = relTol * (relTol * g ^ 2) := by ring
      _ ≤ relTol * ((1 - relTol) ^ 2 * g ^ 2) := by
          apply mul_le_mul_of_nonneg_left _ (by norm_num [relTol])
          exact mul_le_mul_of_nonneg_right e4 (sq_nonneg g)
      _ ≤ relTol * b ^ 2 := by
          apply mul_le_mul_of_nonneg_left _ (by norm_num [relTol])
          nlinarith [e3]

lemma newtonLoop_ok_inv (n : ℚ) (hn : 0 < n) :
    ∀ (fuel : ℕ) (g r : ℚ), 0 < g → newtonLoop n fuel g = .ok r →
      0 < r ∧ n ≤ r ^ 2 ∧ r ^ 2 - n ≤ relTol * r ^ 2 := by
  intro fuel
  induction fuel with
  | zero =>
    intro g r hg h
    exact absurd h (by simp [newtonLoop])
  | succ f ih =>
    intro g r hg h
    rw [newtonLoop, if_neg hg.ne'] at h
    by_cases hc : isclose g (better n g)
    · rw [if_pos hc] at h
      have hr : better n g = r := by injection h
      subst hr
      exact ⟨better_pos n g hn hg, better_sq_ge n g hg.ne',
        isclose_step_bound n g hn hg hc⟩
    · rw [if_neg hc] at h
      exact ih (better n g) r (better_pos n g hn hg) h

lemma isclose_sq_of_bounds (n r : ℚ) (hn : 0 < n) (hr : 0 < r)
    (h1 : n ≤ r ^ 2) (h2 : r ^ 2 - n ≤ relTol * r ^ 2) : isclose (r * r) n := by
  have hrr : 0 < r * r := mul_pos hr hr
  rw [isclose_iff_of_pos _ _ hrr hn]
  have hm : max (r * r) n = r * r := max_eq_left (by nlinarith)
  rw [hm, abs_of_nonneg (by nlinarith)]
  nlinarith

/-- C1: for every `n > 0`, a result `r` returned by the solver satisfies
the closeness predicate applied to `r * r` and `n` under the default
tolerance: `isclose (r * r) n` holds. -/
theorem newton_sqrt_sq_isclose (n : ℚ) (fuel : ℕ) (r : ℚ) (hn : 0 < n)
    (h : newton_sqrt n fuel = .ok r) : isclose (r * r) n := by
  have hg : 0 < n / 2 := by positivity
  obtain ⟨hr, h1, h2⟩ := newtonLoop_ok_inv n hn fuel (n / 2) r hg h
  exact isclose_sq_of_bounds n r hn hr h1 h2

/-- Witness for C1 at `n = 4`, where the solver returns `2` after one
iteration. -/
theorem newton_sqrt_sq_isclose_witness : isclose ((2 : ℚ) * 2) 4 := by
  apply newton_sqrt_sq_isclose 4 1 2 (by norm_num)
  have hs := newton_sqrtX_sim ⟨4, 1⟩ (by norm_num) 1
  rw [show newton_sqrtX ⟨4, 1⟩ 1 = .ok ⟨32, 16⟩ from by decide] at hs
  rw [show Frac.val ⟨4, 1⟩ = 4 from by norm_num [Frac.val]] at hs
  rw [← hs]
  show Outcome.ok (Frac.val ⟨32, 16⟩) = Outcome.ok 2
  norm_num [Frac.val]

/-- C2: the convergence test of the solver is exactly the predicate
`abs(a-b) <= max(rel_tol * max(abs(a), abs(b)), abs_tol)` with
`rel_tol = 1e-9` and `abs_tol = 0`, and the loop returns the better
guess exactly when that predicate holds for the current guess and the
better guess. -/
theorem newton_convergence_test_spec :
    relTol = 1 / 1000000000 ∧ absTol = 0 ∧
    (∀ a b : ℚ, isclose a b ↔ |a - b| ≤ max (relTol * max |a| |b|) absTol) ∧
    (∀ (n g : ℚ) (fuel : ℕ), g ≠ 0 →
      newtonLoop n (fuel + 1) g =
        if isclose g (better n g) then .ok (better n g)
        else newtonLoop n fuel (better n g)) := by
  refine ⟨rfl, rfl, fun a b => Iff.rfl, fun n g fuel hg => ?_⟩
  rw [newtonLoop, if_neg hg]

/-- Witness for C2: the loop-step characterisation instantiated at
`n = 100`, `guess = 50`. -/
theorem newton_convergence_test_spec_witness :
    newtonLoop 100 6 50 =
      if isclose 50 (better 100 50) then Outcome.ok (better 100 50)
      else newtonLoop 100 5 (better 100 50) :=
  newton_convergence_test_spec.2.2.2 100 50 5 (by norm_num)

/-- C3: for input `n = 0`, the solver raises an uncaught division-by-zero
error on the first iteration, in the binary64 model and in the exact
model alike. -/
theorem newton_sqrt_zero_division :
    (∀ fuel : ℕ, newton_sqrtF ⟨0, 1⟩ (fuel + 1) = .zeroDivisionError) ∧
    (∀ fuel : ℕ, newton_sqrt 0 (fuel + 1) = .zeroDivisionError) := by
  constructor
  · intro fuel
    rfl
  · intro fuel
    rw [newton_sqrt, zero_div, newtonLoop, if_pos rfl]

/-- The exact-arithmetic solver returns `2` on input `4` after one
iteration (computed on executable fractions and transported along the
simulation). -/
lemma newton_sqrt_four : newton_sqrt 4 1 = .ok 2 := by
  have hs := newton_sqrtX_sim ⟨4, 1⟩ (by norm_num) 1
  rw [show newton_sqrtX ⟨4, 1⟩ 1 = .ok ⟨32, 16⟩ from by decide] at hs
  rw [show Frac.val ⟨4, 1⟩ = 4 from by norm_num [Frac.val]] at hs
  rw [← hs]
  show Outcome.ok (Frac.val ⟨32, 16⟩) = Outcome.ok 2
  norm_num [Frac.val]

/-- C8: for every `n > 0`, solving the square of the result returns the
same value within tolerance: if the solver returns `r` on `n` and `s`
on `r ^ 2`, then `isclose s r` holds. -/
theorem newton_sqrt_idempotent (n r s : ℚ) (f1 f2 : ℕ) (hn : 0 < n)
    (h1 : newton_sqrt n f1 = .ok r) (h2 : newton_sqrt (r ^ 2) f2 = .ok s) :
    isclose s r := by
  have hg1 : 0 < n / 2 := by positivity
  obtain ⟨hr, -, -⟩ := newtonLoop_ok_inv n hn f1 (n / 2) r hg1 h1
  have hr2 : 0 < r ^ 2 := by positivity
  have hg2 : 0 < r ^ 2 / 2 := by positivity
  obtain ⟨hs, hs1, hs2⟩ := newtonLoop_ok_inv (r ^ 2) hr2 f2 _ s hg2 h2
  have hrs : r ≤ s := by nlinarith
  have hrel : (0 : ℚ) < relTol := by norm_num [relTol]
  rw [isclose_iff_of_pos s r hs hr, max_eq_left hrs,
    abs_of_nonneg (by linarith : (0 : ℚ) ≤ s - r)]
  nlinarith [hs2, mul_pos hs hr, mul_pos hrel (mul_pos hs hr)]

/-- Witness for C8 at `n = 4`: the solver returns `2` on `4` and on
`2 ^ 2`, and `isclose 2 2` holds. -/
theorem newton_sqrt_idempotent_witness : isclose (2 : ℚ) 2 := by
  apply newton_sqrt_idempotent 4 2 2 1 1 (by norm_num) newton_sqrt_four
  rw [show ((2 : ℚ) ^ 2) = 4 from by norm_num]
  exact newton_sqrt_four

/-! ### The guess sequence -/

lemma guessSeq_pos (n : ℚ) (hn : 0 < n) : ∀ k : ℕ, 0 < guessSeq n k := by
  intro k
  induction k with
  | zero =>
    rw [guessSeq]
    positivity
  | succ k ih =>
    rw [guessSeq]
    exact better_pos n _ hn ih

lemma guessSeq_sq_ge (n : ℚ) (hn : 0 < n) (k : ℕ) : n ≤ (guessSeq n (k + 1)) ^ 2 := by
  rw [guessSeq]
  exact better_sq_ge n _ (guessSeq_pos n hn k).ne'

lemma sqrt_le_guessSeq (n : ℚ) (hn : 0 < n) (k : ℕ) :
    Real.sqrt (n : ℝ) ≤ ((guessSeq n (k + 1) : ℚ) : ℝ) := by
  have hpos : 0 < guessSeq n (k + 1) := guessSeq_pos n hn (k + 1)
  have hsq : ((n : ℚ) : ℝ) ≤ ((guessSeq n (k + 1) : ℚ) : ℝ) ^ 2 := by
    exact_mod_cast guessSeq_sq_ge n hn k
  have h := Real.sqrt_le_sqrt hsq
  rwa [Real.sqrt_sq (by exact_mod_cast hpos.le)] at h

lemma guessSeq_le (n : ℚ) (hn : 0 < n) (k : ℕ) :
    guessSeq n (k + 2) ≤ guessSeq n (k + 1) := by
  have hpos := guessSeq_pos n hn (k + 1)
  have hsq := guessSeq_sq_ge n hn k
  rw [show guessSeq n (k + 2) = better n (guessSeq n (k + 1)) from by rw [guessSeq]]
  exact better_le_self n _ hpos hsq

lemma newtonLoop_ne_zeroDiv (n : ℚ) (hn : 0 < n) :
    ∀ (fuel : ℕ) (g : ℚ), 0 < g → newtonLoop n fuel g ≠ .zeroDivisionError := by
  intro fuel
  induction fuel with
  | zero =>
    intro g hg h
    simp [newtonLoop] at h
  | succ f ih =>
    intro g hg
    rw [newtonLoop, if_neg hg.ne']
    by_cases hc : isclose g (better n g)
    · rw [if_pos hc]
      simp
    · rw [if_neg hc]
      exact ih _ (better_pos n g hn hg)

/-- The smallest positive binary64 value `2^(-1074)` (the Python float
`5e-324`) denotes a positive rational. -/
lemma minSubnormal_val_pos : 0 < minSubnormal.val := by
  rw [minSubnormal, Frac.val]
  apply div_pos
  · norm_num
  · exact Int.cast_pos.mpr (Int.ofNat_pos.mpr (pow_pos (by norm_num) 1074))

set_option maxRecDepth 1000000 in
/-- C9 counterexample: the division-by-zero branch is reachable for a
positive input.  On the smallest positive binary64 value `2^(-1074)`
(`5e-324`), the initial guess `n / 2` rounds to zero (tie-to-even at
half the subnormal quantum), and the first `n/guess` of the loop
raises the division error. -/
theorem newton_sqrt_no_div_zero_cex :
    0 < minSubnormal.val ∧
    newton_sqrtF minSubnormal 5 = .zeroDivisionError :=
  ⟨minSubnormal_val_pos, by decide⟩

/-- C9, amended to the exact-arithmetic reading of the spec's real
data model: for every `n > 0`, every guess after the initial one is at
least the true square root of `n`, every guess is strictly positive,
and the solver never raises the division-by-zero error: that branch is
unreachable.  (In binary64 arithmetic the unrestricted claim fails at
`n = 2^(-1074)`, where the initial guess `n / 2` itself rounds to
zero.) -/
theorem newton_sqrt_no_div_zero (n : ℚ) (hn : 0 < n) :
    (∀ k : ℕ, Real.sqrt (n : ℝ) ≤ ((guessSeq n (k + 1) : ℚ) : ℝ)) ∧
    (∀ k : ℕ, 0 < guessSeq n k) ∧
    (∀ fuel : ℕ, newton_sqrt n fuel ≠ .zeroDivisionError) := by
  refine ⟨fun k => sqrt_le_guessSeq n hn k, fun k => guessSeq_pos n hn k, fun fuel => ?_⟩
  exact newtonLoop_ne_zeroDiv n hn fuel (n / 2) (by positivity)

/-- Witness for C9 at `n = 4`. -/
theorem newton_sqrt_no_div_zero_witness :
    Real.sqrt ((4 : ℚ) : ℝ) ≤ ((guessSeq 4 1 : ℚ) : ℝ) ∧ 0 < guessSeq 4 2 ∧
    newton_sqrt 4 3 ≠ Outcome.zeroDivisionError :=
  ⟨(newton_sqrt_no_div_zero 4 (by norm_num)).1 0,
    (newton_sqrt_no_div_zero 4 (by norm_num)).2.1 2,
    (newton_sqrt_no_div_zero 4 (by norm_num)).2.2 3⟩

lemma guessSeq_err_mono (n : ℚ) (hn : 0 < n) (k : ℕ) :
    |((guessSeq n (k + 2) : ℚ) : ℝ) - Real.sqrt (n : ℝ)|
      ≤ |((guessSeq n (k + 1) : ℚ) : ℝ) - Real.sqrt (n : ℝ)| := by
  have h1 := sqrt_le_guessSeq n hn k
  have h2 := sqrt_le_guessSeq n hn (k + 1)
  have h3 : ((guessSeq n (k + 2) : ℚ) : ℝ) ≤ ((guessSeq n (k + 1) : ℚ) : ℝ) := by
    exact_mod_cast guessSeq_le n hn k
  rw [abs_of_nonneg (by linarith), abs_of_nonneg (by linarith)]
  linarith

lemma guessSeq_hundred_gt (k : ℕ) : 10 < guessSeq 100 k := by
  induction k with
  | zero =>
    rw [guessSeq]
    norm_num
  | succ k ih =>
    rw [guessSeq]
    set g := guessSeq 100 k with hgdef
    have hg : (0 : ℚ) < g := by linarith
    show 10 < (g + 100 / g) / 2
    rw [lt_div_iff (by norm_num : (0 : ℚ) < 2), ← sub_pos]
    have he : g + 100 / g - 10 * 2 = (g - 10) ^ 2 / g := by
      field_simp
      ring
    rw [he]
    exact div_pos (pow_pos (by linarith) 2) hg

lemma guessSeq_hundred_dec (k : ℕ) :
    |guessSeq 100 (k + 1) - 10| < |guessSeq 100 k - 10| := by
  have hk := guessSeq_hundred_gt k
  have hk1 := guessSeq_hundred_gt (k + 1)
  rw [abs_of_pos (by linarith), abs_of_pos (by linarith)]
  have hdec : guessSeq 100 (k + 1) < guessSeq 100 k := by
    rw [show guessSeq 100 (k + 1) = better 100 (guessSeq 100 k) from by rw [guessSeq]]
    set g := guessSeq 100 k with hgdef
    have hg : (0 : ℚ) < g := by linarith
    show (g + 100 / g) / 2 < g
    rw [div_lt_iff (by norm_num : (0 : ℚ) < 2)]
    have h2 : 100 / g < g := by
      rw [div_lt_iff hg]
      nlinarith
    linarith
  linarith

/-- C4: for every `n > 0` the guess sequence is non-increasing in
absolute error past the first iteration; for `n = 100` the first guess
is `50` and every subsequent guess is strictly closer to `10` than its
predecessor. -/
theorem newton_guess_error_monotone :
    (∀ (n : ℚ), 0 < n → ∀ k : ℕ,
      |((guessSeq n (k + 2) : ℚ) : ℝ) - Real.sqrt (n : ℝ)|
        ≤ |((guessSeq n (k + 1) : ℚ) : ℝ) - Real.sqrt (n : ℝ)|) ∧
    guessSeq 100 0 = 50 ∧
    (∀ k : ℕ, |guessSeq 100 (k + 1) - 10| < |guessSeq 100 k - 10|) := by
  refine ⟨fun n hn k => guessSeq_err_mono n hn k, ?_, fun k => guessSeq_hundred_dec k⟩
  rw [guessSeq]
  norm_num

/-- Witness for C4 at `n = 4`, `k = 0`. -/
theorem newton_guess_error_monotone_witness :
    |((guessSeq 4 2 : ℚ) : ℝ) - Real.sqrt ((4 : ℚ) : ℝ)|
      ≤ |((guessSeq 4 1 : ℚ) : ℝ) - Real.sqrt ((4 : ℚ) : ℝ)| :=
  newton_guess_error_monotone.1 4 (by norm_num) 0

/-! ### Concrete binary64 runs -/

lemma newtonLoopF_mono (n : Frac) :
    ∀ (f k : ℕ) (g r : Frac), newtonLoopF n f g = .ok r →
      newtonLoopF n (f + k) g = .ok r := by
  intro f
  induction f with
  | zero =>
    intro k g r h
    exact absurd h (by simp [newtonLoopF])
  | succ f ih =>
    intro k g r h
    by_cases hz : g.isZero = true
    · rw [newtonLoopF, if_pos hz] at h
      exact absurd h (by simp)
    · rw [newtonLoopF, if_neg hz] at h
      by_cases hc : iscloseF g (betterF n g) = true
      · rw [if_pos hc] at h
        rw [show f + 1 + k = (f + k) + 1 from by omega, newtonLoopF, if_neg hz, if_pos hc]
        exact h
      · rw [if_neg hc] at h
        rw [show f + 1 + k = (f + k) + 1 from by omega, newtonLoopF, if_neg hz, if_neg hc]
        exact ih k _ r h

set_option maxRecDepth 200000 in
/-- C6: in the binary64 model, the solver applied to `100` returns the
floating-point value `10.0` exactly (the returned fraction denotes the
rational `10`), at fuel `12` and at every larger fuel. -/
theorem newton_sqrt_hundred_exact :
    newton_sqrtF ⟨100, 1⟩ 12 = .ok ⟨5629499534213120, 562949953421312⟩ ∧
    Frac.val ⟨5629499534213120, 562949953421312⟩ = 10 ∧
    (∀ extra : ℕ, newton_sqrtF ⟨100, 1⟩ (12 + extra) = .ok ⟨5629499534213120, 562949953421312⟩) := by
  have h : newton_sqrtF ⟨100, 1⟩ 12 = .ok ⟨5629499534213120, 562949953421312⟩ := by
    decide
  exact ⟨h, by norm_num [Frac.val], fun extra => newtonLoopF_mono ⟨100, 1⟩ 12 extra _ _ h⟩

set_option maxRecDepth 200000 in
/-- C7: in the binary64 model, the solver applied to `1` returns the
floating-point value `1.0` exactly (the returned fraction denotes the
rational `1`), at fuel `12` and at every larger fuel. -/
theorem newton_sqrt_one_exact :
    newton_sqrtF ⟨1, 1⟩ 12 = .ok ⟨4503599627370496, 4503599627370496⟩ ∧
    Frac.val ⟨4503599627370496, 4503599627370496⟩ = 1 ∧
    (∀ extra : ℕ, newton_sqrtF ⟨1, 1⟩ (12 + extra) = .ok ⟨4503599627370496, 4503599627370496⟩) := by
  have h : newton_sqrtF ⟨1, 1⟩ 12 = .ok ⟨4503599627370496, 4503599627370496⟩ := by
    decide
  exact ⟨h, by norm_num [Frac.val], fun extra => newtonLoopF_mono ⟨1, 1⟩ 12 extra _ _ h⟩

/-! ### Closeness to the true square root -/

lemma isCloseR_of_intFacts (x : Frac) (n : ℕ) (hd : 0 < x.den) (hp : 0 < x.num)
    (h1 : (n : ℤ) * x.den ^ 2 ≤ x.num ^ 2)
    (h2 : (x.num * 999999999) ^ 2 ≤ (n : ℤ) * (x.den * 1000000000) ^ 2) :
    isCloseR ((x.val : ℚ) : ℝ) (Real.sqrt (n : ℝ)) := by
  have hdQ : (0 : ℚ) < (x.den : ℚ) := by exact_mod_cast hd
  have hpQ : (0 : ℚ) < (x.num : ℚ) := by exact_mod_cast hp
  have hr : (0 : ℚ) < x.val := div_pos hpQ hdQ
  have hq1 : (n : ℚ) ≤ x.val ^ 2 := by
    rw [Frac.val, div_pow, le_div_iff (by positivity)]
    exact_mod_cast h1
  have hq2 : (x.val * (999999999 / 1000000000)) ^ 2 ≤ (n : ℚ) := by
    rw [Frac.val, div_mul_div_comm, div_pow, div_le_iff (by positivity)]
    exact_mod_cast h2
  have hrR : (0 : ℝ) < ((x.val : ℚ) : ℝ) := by exact_mod_cast hr
  have h1R : ((n : ℕ) : ℝ) ≤ ((x.val : ℚ) : ℝ) ^ 2 := by exact_mod_cast hq1
  have h2R : (((x.val : ℚ) : ℝ) * (999999999 / 1000000000)) ^ 2 ≤ ((n : ℕ) : ℝ) := by
    have h := (Rat.cast_le (K := ℝ)).mpr hq2
    push_cast at h
    convert h using 2
  have hs1 : Real.sqrt (n : ℝ) ≤ ((x.val : ℚ) : ℝ) := by
    have h := Real.sqrt_le_sqrt h1R
    rwa [Real.sqrt_sq hrR.le] at h
  have hs2 : ((x.val : ℚ) : ℝ) * (999999999 / 1000000000) ≤ Real.sqrt (n : ℝ) := by
    have hnn : (0 : ℝ) ≤ ((x.val : ℚ) : ℝ) * (999999999 / 1000000000) := by positivity
    have h := Real.sqrt_le_sqrt h2R
    rwa [Real.sqrt_sq hnn] at h
  rw [isCloseR, abs_of_nonneg (by linarith : (0 : ℝ) ≤ ((x.val : ℚ) : ℝ) - Real.sqrt (n : ℝ)),
    abs_of_pos hrR, abs_of_nonneg (Real.sqrt_nonneg _), max_eq_left hs1]
  have hmax : max (((relTol : ℚ) : ℝ) * ((x.val : ℚ) : ℝ)) ((absTol : ℚ) : ℝ)
      = ((relTol : ℚ) : ℝ) * ((x.val : ℚ) : ℝ) := by
    apply max_eq_left
    rw [show ((absTol : ℚ) : ℝ) = 0 from by norm_num [absTol]]
    have hrel : (0 : ℝ) ≤ ((relTol : ℚ) : ℝ) := by
      rw [show ((relTol : ℚ) : ℝ) = 1 / 1000000000 from by norm_num [relTol]]
      norm_num
    exact mul_nonneg hrel hrR.le
  rw [hmax, show ((relTol : ℚ) : ℝ) = 1 / 1000000000 from by norm_num [relTol]]
  linarith

/-- Transport of a concrete fraction-level run of the solver to the
rational-level solver. -/
lemma newton_sqrt_run (m : ℕ) (w : Frac)
    (hrun : newton_sqrtX ⟨(m : ℤ), 1⟩ 30 = .ok w) :
    newton_sqrt (m : ℚ) 30 = .ok w.val := by
  have hs := newton_sqrtX_sim ⟨(m : ℤ), 1⟩ (by norm_num) 30
  rw [hrun] at hs
  rw [show Frac.val ⟨(m : ℤ), 1⟩ = (m : ℚ) from by norm_num [Frac.val]] at hs
  exact hs.symm

set_option maxRecDepth 1000000 in
/-- C5: for every `n` in `{9, ..., 16}`, the solver's result is close
to the true square root under the default tolerance — both as computed
by the program (`iscloseF` of the binary64 run against the binary64
value of `math.sqrt n`, certified correctly rounded by `sqrtRounded`)
and against the exact real root — even though bit-exact equality of
the binary64 result with the binary64 `math.sqrt n` fails for `n = 10`
and `n = 13`. -/
theorem newton_sqrt_nine_to_sixteen (m : ℕ)
    (hm : m ∈ [9, 10, 11, 12, 13, 14, 15, 16]) :
    (newton_sqrt (m : ℚ) 30 = .ok (sqrtApprox (m : ℚ)) ∧
      iscloseF (fsqrtApprox m) (msqrtF m) = true ∧
      sqrtRounded m (msqrtF m).num ∧
      isCloseR ((sqrtApprox (m : ℚ) : ℚ) : ℝ) (Real.sqrt (m : ℝ))) ∧
    ((m = 10 ∨ m = 13) →
      ∀ s : ℤ, sqrtRounded m s → ((s : ℚ) / 2 ^ 51) ≠ (fsqrtApprox m).val) := by
  fin_cases hm
  · have hrun : newton_sqrtX ⟨9, 1⟩ 30 = .ok (okX (newton_sqrtX ⟨9, 1⟩ 30)) := by decide
    have hq := newton_sqrt_run 9 _ hrun
    have happ : sqrtApprox ((9 : ℕ) : ℚ) = (okX (newton_sqrtX ⟨9, 1⟩ 30)).val := by
      rw [sqrtApprox, hq, okValue]
    exact ⟨⟨by rw [happ]; exact hq, by decide, by decide, by
      rw [happ]; exact isCloseR_of_intFacts _ 9 (by decide) (by decide) (by decide) (by decide)⟩,
      fun h => absurd h (by decide)⟩
  · have hrun : newton_sqrtX ⟨10, 1⟩ 30 = .ok (okX (newton_sqrtX ⟨10, 1⟩ 30)) := by decide
    have hq := newton_sqrt_run 10 _ hrun
    have happ : sqrtApprox ((10 : ℕ) : ℚ) = (okX (newton_sqrtX ⟨10, 1⟩ 30)).val := by
      rw [sqrtApprox, hq, okValue]
    refine ⟨⟨by rw [happ]; exact hq, by decide, by decide, by
      rw [happ]; exact isCloseR_of_intFacts _ 10 (by decide) (by decide) (by decide) (by decide)⟩,
      fun _ s hs heq => ?_⟩
    rw [show fsqrtApprox 10 = ⟨7120816245988178, 2251799813685248⟩ from by decide] at heq
    have h1 : ((s : ℚ) / 2 ^ 51) * 2 ^ 51 = (s : ℚ) := by field_simp
    have h2 : (Frac.val ⟨7120816245988178, 2251799813685248⟩) * 2 ^ 51
        = 7120816245988178 := by
      rw [Frac.val]
      norm_num
    have h3 : (s : ℚ) = 7120816245988178 := by rw [← h1, heq, h2]
    have h4 : s = 7120816245988178 := by exact_mod_cast h3
    rw [h4] at hs
    exact absurd hs (by decide)
  · have hrun : newton_sqrtX ⟨11, 1⟩ 30 = .ok (okX (newton_sqrtX ⟨11, 1⟩ 30)) := by decide
    have hq := newton_sqrt_run 11 _ hrun
    have happ : sqrtApprox ((11 : ℕ) : ℚ) = (okX (newton_sqrtX ⟨11, 1⟩ 30)).val := by
      rw [sqrtApprox, hq, okValue]
    exact ⟨⟨by rw [happ]; exact hq, by decide, by decide, by
      rw [happ]; exact isCloseR_of_intFacts _ 11 (by decide) (by decide) (by decide) (by decide)⟩,
      fun h => absurd h (by decide)⟩
  · have hrun : newton_sqrtX ⟨12, 1⟩ 30 = .ok (okX (newton_sqrtX ⟨12, 1⟩ 30)) := by decide
    have hq := newton_sqrt_run 12 _ hrun
    have happ : sqrtApprox ((12 : ℕ) : ℚ) = (okX (newton_sqrtX ⟨12, 1⟩ 30)).val := by
      rw [sqrtApprox, hq, okValue]
    exact ⟨⟨by rw [happ]; exact hq, by decide, by decide, by
      rw [happ]; exact isCloseR_of_intFacts _ 12 (by decide) (by decide) (by decide) (by decide)⟩,
      fun h => absurd h (by decide)⟩
  · have hrun : newton_sqrtX ⟨13, 1⟩ 30 = .ok (okX (newton_sqrtX ⟨13, 1⟩ 30)) := by decide
    have hq := newton_sqrt_run 13 _ hrun
    have happ : sqrtApprox ((13 : ℕ) : ℚ) = (okX (newton_sqrtX ⟨13, 1⟩ 30)).val := by
      rw [sqrtApprox, hq, okValue]
    refine ⟨⟨by rw [happ]; exact hq, by decide, by decide, by
      rw [happ]; exact isCloseR_of_intFacts _ 13 (by decide) (by decide) (by decide) (by decide)⟩,
      fun _ s hs heq => ?_⟩
    rw [show fsqrtApprox 13 = ⟨8118979690322420, 2251799813685248⟩ from by decide] at heq
    have h1 : ((s : ℚ) / 2 ^ 51) * 2 ^ 51 = (s : ℚ) := by field_simp
    have h2 : (Frac.val ⟨8118979690322420, 2251799813685248⟩) * 2 ^ 51
        = 8118979690322420 := by
      rw [Frac.val]
      norm_num
    have h3 : (s : ℚ) = 8118979690322420 := by rw [← h1, heq, h2]
    have h4 : s = 8118979690322420 := by exact_mod_cast h3
    rw [h4] at hs
    exact absurd hs (by decide)
  · have hrun : newton_sqrtX ⟨14, 1⟩ 30 = .ok (okX (newton_sqrtX ⟨14, 1⟩ 30)) := by decide
    have hq := newton_sqrt_run 14 _ hrun
    have happ : sqrtApprox ((14 : ℕ) : ℚ) = (okX (newton_sqrtX ⟨14, 1⟩ 30)).val := by
      rw [sqrtApprox, hq, okValue]
    exact ⟨⟨by rw [happ]; exact hq, by decide, by decide, by
      rw [happ]; exact isCloseR_of_intFacts _ 14 (by decide) (by decide) (by decide) (by decide)⟩,
      fun h => absurd h (by decide)⟩
  · have hrun : newton_sqrtX ⟨15, 1⟩ 30 = .ok (okX (newton_sqrtX ⟨15, 1⟩ 30)) := by decide
    have hq := newton_sqrt_run 15 _ hrun
    have happ : sqrtApprox ((15 : ℕ) : ℚ) = (okX (newton_sqrtX ⟨15, 1⟩ 30)).val := by
      rw [sqrtApprox, hq, okValue]
    exact ⟨⟨by rw [happ]; exact hq, by decide, by decide, by
      rw [happ]; exact isCloseR_of_intFacts _ 15 (by decide) (by decide) (by decide) (by decide)⟩,
      fun h => absurd h (by decide)⟩
  · have hrun : newton_sqrtX ⟨16, 1⟩ 30 = .ok (okX (newton_sqrtX ⟨16, 1⟩ 30)) := by decide
    have hq := newton_sqrt_run 16 _ hrun
    have happ : sqrtApprox ((16 : ℕ) : ℚ) = (okX (newton_sqrtX ⟨16, 1⟩ 30)).val := by
      rw [sqrtApprox, hq, okValue]
    exact ⟨⟨by rw [happ]; exact hq, by decide, by decide, by
      rw [happ]; exact isCloseR_of_intFacts _ 16 (by decide) (by decide) (by decide) (by decide)⟩,
      fun h => absurd h (by decide)⟩

/-- Witness for C5 at `n = 9`: the run succeeds, the binary64 result is
close to the certified binary64 `math.sqrt 9`, and the result is close
to the real root. -/
theorem newton_sqrt_nine_to_sixteen_witness :
    newton_sqrt ((9 : ℕ) : ℚ) 30 = .ok (sqrtApprox ((9 : ℕ) : ℚ)) ∧
    iscloseF (fsqrtApprox 9) (msqrtF 9) = true ∧
    sqrtRounded 9 (msqrtF 9).num ∧
    isCloseR ((sqrtApprox ((9 : ℕ) : ℚ) : ℚ) : ℝ) (Real.sqrt ((9 : ℕ) : ℝ)) :=
  (newton_sqrt_nine_to_sixteen 9 (by decide)).1

/-! ### Termination of the loop -/

lemma better_diff (n g : ℚ) (hg : g ≠ 0) : g - better n g = (g ^ 2 - n) / (2 * g) := by
  unfold better
  field_simp
  ring

lemma newton_term_aux (n : ℚ) (hn : 0 < n) :
    ∀ (K : ℕ) (g : ℚ), 0 < g → n ≤ g ^ 2 →
      g - better n g ≤ relTol * (n / g) * 2 ^ K →
      ∃ (fuel : ℕ) (r : ℚ), newtonLoop n fuel g = .ok r := by
  intro K
  induction K with
  | zero =>
    intro g hg hsq hd
    have hb := better_pos n g hn hg
    have hble := better_le_self n g hg hsq
    have hcl : isclose g (better n g) := by
      rw [isclose_iff_of_pos g _ hg hb, max_eq_left hble, abs_of_nonneg (by linarith)]
      have hng : n / g ≤ g := (div_le_iff hg).mpr (by nlinarith)
      have hrel : (0 : ℚ) ≤ relTol := by norm_num [relTol]
      calc g - better n g ≤ relTol * (n / g) * 2 ^ 0 := hd
        _ = relTol * (n / g) := by ring
        _ ≤ relTol * g := mul_le_mul_of_nonneg_left hng hrel
    exact ⟨1, better n g, by rw [newtonLoop, if_neg hg.ne', if_pos hcl]⟩
  | succ K ih =>
    intro g hg hsq hd
    by_cases hcl : isclose g (better n g)
    · exact ⟨1, better n g, by rw [newtonLoop, if_neg hg.ne', if_pos hcl]⟩
    · set b := better n g with hbdef
      have hb : 0 < b := better_pos n g hn hg
      have hble : b ≤ g := better_le_self n g hg hsq
      have hbsq : n ≤ b ^ 2 := better_sq_ge n g hg.ne'
      have hdb : b - better n b = (b ^ 2 - n) / (2 * b) := better_diff n b hb.ne'
      have hsub : b ^ 2 - n = (g - b) ^ 2 := better_sub_sq n g hg.ne'
      have hd_nonneg : 0 ≤ g - b := by linarith
      have h2b : g ≤ 2 * b := by
        have hdivpos : 0 < n / g := div_pos hn hg
        have : 2 * b = g + n / g := by rw [hbdef]; unfold better; ring
        linarith
      have hkey : b - better n b ≤ (g - b) / 2 := by
        rw [hdb, hsub, div_le_div_iff (by linarith) (by norm_num)]
        nlinarith
      have hng : relTol * (n / g) ≤ relTol * (n / b) := by
        have hdd : n / g ≤ n / b := by
          rw [div_le_div_iff hg hb]
          nlinarith
        exact mul_le_mul_of_nonneg_left hdd (by norm_num [relTol])
      have hd2 : b - better n b ≤ relTol * (n / b) * 2 ^ K := by
        have h2 : relTol * (n / g) * 2 ^ (K + 1) / 2 = relTol * (n / g) * 2 ^ K := by
          ring
        calc b - better n b ≤ (g - b) / 2 := hkey
          _ ≤ relTol * (n / g) * 2 ^ (K + 1) / 2 := by linarith
          _ = relTol * (n / g) * 2 ^ K := h2
          _ ≤ relTol * (n / b) * 2 ^ K := by
              apply mul_le_mul_of_nonneg_right hng (by positivity)
      obtain ⟨fuel, r, hr⟩ := ih b hb hbsq hd2
      refine ⟨fuel + 1, r, ?_⟩
      rw [newtonLoop, if_neg hg.ne', if_neg hcl]
      exact hr

set_option maxRecDepth 1000000 in
/-- C10 counterexample: on the smallest positive binary64 input
`2^(-1074)` (`5e-324`) the loop never returns `better_guess`: every run
raises the division error on its first iteration (shown here at three
fuel amounts; the error occurs before any fuel beyond the first step
is consumed). -/
theorem newton_sqrt_terminates_cex :
    0 < minSubnormal.val ∧
    newton_sqrtF minSubnormal 1 = .zeroDivisionError ∧
    newton_sqrtF minSubnormal 7 = .zeroDivisionError ∧
    newton_sqrtF minSubnormal 30 = .zeroDivisionError :=
  ⟨minSubnormal_val_pos, by decide, by decide, by decide⟩

/-- C10, amended to the exact-arithmetic reading of the spec's real
data model: for every positive input `n`, the unbounded loop of the
solver terminates: there is a fuel bound within which two successive
guesses satisfy the closeness test and the loop returns a value.  (In
binary64 arithmetic the claim over all positive floats fails at
`n = 2^(-1074)`, where the loop raises the division error instead of
returning.) -/
theorem newton_sqrt_terminates (n : ℚ) (hn : 0 < n) :
    ∃ (fuel : ℕ) (r : ℚ), newton_sqrt n fuel = .ok r := by
  have hg0 : 0 < n / 2 := by positivity
  by_cases hcl : isclose (n / 2) (better n (n / 2))
  · exact ⟨1, better n (n / 2), by rw [newton_sqrt, newtonLoop, if_neg hg0.ne', if_pos hcl]⟩
  · set g1 := better n (n / 2) with hg1def
    have hg1 : 0 < g1 := better_pos n _ hn hg0
    have hsq1 : n ≤ g1 ^ 2 := better_sq_ge n _ hg0.ne'
    have hbase : 0 < relTol * (n / g1) := by
      have hrel : (0 : ℚ) < relTol := by norm_num [relTol]
      exact mul_pos hrel (div_pos hn hg1)
    obtain ⟨K, hK⟩ := pow_unbounded_of_one_lt
      ((g1 - better n g1) / (relTol * (n / g1))) (by norm_num : (1 : ℚ) < 2)
    have hd1 : g1 - better n g1 ≤ relTol * (n / g1) * 2 ^ K := by
      have h1 := (div_lt_iff hbase).mp hK
      nlinarith
    obtain ⟨fuel, r, hr⟩ := newton_term_aux n hn K g1 hg1 hsq1 hd1
    refine ⟨fuel + 1, r, ?_⟩
    rw [newton_sqrt, newtonLoop, if_neg hg0.ne', if_neg hcl]
    exact hr

/-- Witness for C10 at `n = 100`. -/
theorem newton_sqrt_terminates_witness :
    ∃ (fuel : ℕ) (r : ℚ), newton_sqrt 100 fuel = .ok r :=
  newton_sqrt_terminates 100 (by norm_num)
